import Mathlib

/-!
Verification of the BingX client's canonical parameter encoding and signing
subsystem.  The Go source (`buildQueryString`, `formatValue`, `isComplexValue`,
`containsComplexValues`, `structToMap`, `sign`, `doRequest`, `NewClient`) is
shallowly embedded: Go `float64` values are modelled by the exact rational
they hold, machine integers by `Int`/`Nat`, Go maps by duplicate-free
association lists, and the Go standard library primitives used by the code
(`sort.Strings`, `url.QueryEscape`, `fmt` numeric rendering, HMAC-SHA256,
hex encoding) are given explicit executable definitions.
-/

namespace BingX

/-! ### Byte-wise lexicographic string order (Go `sort.Strings`)

Go compares strings byte-wise over their UTF-8 encodings; on code points this
coincides with lexicographic order of the character sequences. -/

def charListLe : List Char → List Char → Bool
  | [], _ => true
  | x :: xr, yl =>
    match yl with
    | [] => false
    | y :: yr =>
      if x.toNat < y.toNat then true
      else if y.toNat < x.toNat then false
      else charListLe xr yr

def strLe (a b : String) : Bool := charListLe a.data b.data

/-- The ordering relation used by `sortStrings`, as a `Prop`. -/
def strLeR (a b : String) : Prop := strLe a b = true

instance : DecidableRel strLeR := fun a b => instDecidableEqBool (strLe a b) true

/-- Model of Go `sort.Strings`: sort a list of keys into byte-wise
lexicographic order (any correct sort produces the same list). -/
def sortStrings (l : List String) : List String := l.insertionSort strLeR

/-! ### Decimal rendering (Go `fmt` `%d` / `%.0f` digits) -/

/-- Digits of `n`, most significant first, by repeated division; the fuel
argument only bounds the recursion and `n + 1` always suffices. -/
def natDigitsAux : ℕ → ℕ → List Char → List Char
  | 0, _, acc => acc
  | fuel + 1, n, acc =>
    let acc' := Char.ofNat (48 + n % 10) :: acc
    if n < 10 then acc' else natDigitsAux fuel (n / 10) acc'

/-- Decimal numeral of a natural number, e.g. `natDecimal 105 = "105"`. -/
def natDecimal (n : ℕ) : String := ⟨natDigitsAux (n + 1) n []⟩

/-- Decimal numeral of an integer, preserving sign: Go `fmt.Sprintf("%d", v)`
and `fmt.Sprintf("%.0f", v)` for an exactly integral `v`. -/
def intRepr (n : ℤ) : String :=
  if n < 0 then "-" ++ natDecimal n.natAbs else natDecimal n.natAbs

/-! ### Fixed-point float rendering (Go `fmt.Sprintf("%.*f", prec, val)`)

Go's `%.*f` renders sign and magnitude, rounding the exact value held by the
float to `prec` decimal places with ties broken to even. -/

/-- Round a rational to the nearest integer, ties to even. -/
def roundHalfEven (x : ℚ) : ℤ :=
  let f := ⌊x⌋
  if x - f < 1/2 then f
  else if 1/2 < x - f then f + 1
  else if f % 2 = 0 then f else f + 1

/-- Left-pad a numeral with zeros to width `p`. -/
def padZeros (s : String) (p : ℕ) : String :=
  ⟨List.replicate (p - s.data.length) '0' ++ s.data⟩

/-- Go `fmt.Sprintf("%.*f", p, q)`: sign, integer part, `'.'`, and exactly
`p` fractional digits of the correctly rounded magnitude. -/
def fixedPoint (q : ℚ) (p : ℕ) : String :=
  let m := (roundHalfEven (|q| * (10 : ℚ) ^ p)).toNat
  (if q < 0 then "-" else "") ++
    natDecimal (m / 10 ^ p) ++ "." ++ padZeros (natDecimal (m % 10 ^ p)) p

/-- Go `strings.TrimRight s cutset` for a one-character cutset: remove all
trailing occurrences of `c`. -/
def trimRightChar (s : String) (c : Char) : String :=
  ⟨(s.data.reverse.dropWhile (· = c)).reverse⟩

/-! ### Parameter values -/

/-- A dynamically typed parameter value as it appears in the Go
`map[string]interface{}`: a string, a `float64` (modelled by the exact
rational it holds), an `int64` (the injected timestamp), or a boolean. -/
inductive GoValue
  | str (s : String)
  | num (q : ℚ)
  | int (n : ℤ)
  | bool (b : Bool)
deriving DecidableEq

/-- Translation of the Go `formatValue` method.  The `float64` branch: zero
renders as `"0"`; an exactly integral value of magnitude below `1e15` renders
as a plain integer numeral (in Go, `val == float64(int64(val)) && val < 1e15
&& val > -1e15`, which on the rationals held by floats in that range is
exactly integrality); otherwise a fixed-point rendering at precision 8
(magnitude at least 1), 8 (magnitude at least 0.0001) or 10, with trailing
zeros and then a trailing decimal point trimmed.  Integer values use `%d`;
strings and booleans fall to the `%v` default and pass through literally. -/
def formatValue : GoValue → String
  | .num q =>
    if q = 0 then "0"
    else if q.den = 1 ∧ q < 10 ^ 15 ∧ -(10 ^ 15 : ℚ) < q then intRepr q.num
    else
      let p : ℕ := if 1 ≤ |q| then 8 else if 1/10000 ≤ |q| then 8 else 10
      trimRightChar (trimRightChar (fixedPoint q p) '0') '.'
  | .int n => intRepr n
  | .str s => s
  | .bool b => if b then "true" else "false"

/-- Translation of `isComplexValue`: Go
`strings.ContainsAny(value, "[{")`. -/
def isComplexValue (value : String) : Bool :=
  value.data.any (fun c => c = '[' || c = '{')

/-! ### Percent-encoding (Go `net/url.QueryEscape`)

`QueryEscape` works over the UTF-8 bytes of the string: ASCII letters,
digits and `-` `_` `.` `~` are kept, a space becomes `'+'`, and every other
byte becomes `'%'` followed by two uppercase hex digits. -/

/-- UTF-8 encoding of one character. -/
def charUtf8 (c : Char) : List ℕ :=
  let n := c.toNat
  if n < 128 then [n]
  else if n < 2048 then [192 + n / 64, 128 + n % 64]
  else if n < 65536 then [224 + n / 4096, 128 + (n / 64) % 64, 128 + n % 64]
  else [240 + n / 262144, 128 + (n / 4096) % 64, 128 + (n / 64) % 64, 128 + n % 64]

def hexDigitsUpper : List Char := ("0123456789ABCDEF" : String).data

def hexDigitU (n : ℕ) : Char := hexDigitsUpper.getD n '0'

/-- Characters `QueryEscape` leaves unescaped: ASCII alphanumerics and
`-` `_` `.` `~`. -/
def isUnreservedQuery (c : Char) : Bool :=
  c.isAlphanum || c = '-' || c = '_' || c = '.' || c = '~'

def queryEscapeChar (c : Char) : List Char :=
  if isUnreservedQuery c then [c]
  else if c = ' ' then ['+']
  else (charUtf8 c).flatMap (fun b => ['%', hexDigitU (b / 16), hexDigitU (b % 16)])

/-- Model of Go `url.QueryEscape`. -/
def queryEscape (s : String) : String := ⟨s.data.flatMap queryEscapeChar⟩

/-- Go `strings.ReplaceAll(value, "+", "%20")` (the pattern is a single
character, so this is a per-character replacement). -/
def replacePlus (s : String) : String :=
  ⟨s.data.flatMap (fun c => if c = '+' then ['%', '2', '0'] else [c])⟩

/-! ### `%v` stringification (Go `fmt.Sprintf("%v", v)`)

`containsComplexValues` classifies the raw `%v` rendering of each value,
not the `formatValue` rendering. -/

/-- Models the Go standard library's default (`%v`) rendering of a `float64`
(`strconv.FormatFloat` in `'g'` shortest form).  The exact digit selection is
immaterial to this development — only that the rendering is a decimal or
scientific numeral whose characters never include `'['` or `'{'` — so we
render integral values as integers and other values in trimmed fixed-point. -/
def goFloatG (q : ℚ) : String :=
  if q.den = 1 then intRepr q.num
  else trimRightChar (trimRightChar (fixedPoint q 17) '0') '.'

/-- Go `fmt.Sprintf("%v", v)` on the value kinds that can occur in a
parameter map. -/
def sprintV : GoValue → String
  | .str s => s
  | .num q => goFloatG q
  | .int n => intRepr n
  | .bool b => if b then "true" else "false"

/-! ### Parameter maps and canonicalization -/

/-- A Go `map[string]interface{}` is modelled by an association list; the
map's defining property (unique keys) is the `Nodup` hypothesis carried by
the theorems.  Insertion order is irrelevant to canonicalization. -/
abbrev ParamMap := List (String × GoValue)

/-- Go map indexing `params[key]` for a key known to be present (lookup of
an absent key never happens in `buildQueryString`, since keys are drawn from
the map itself; the default is arbitrary). -/
def lookupD (params : ParamMap) (k : String) : GoValue :=
  (params.lookup k).getD (.str "")

/-- Translation of `containsComplexValues`: some value's `%v` rendering
contains `'['` or `'{'`. -/
def containsComplexValues (params : ParamMap) : Bool :=
  params.any (fun kv => isComplexValue (sprintV kv.2))

/-- Go `strings.Join(parts, "&")`. -/
def joinAmp : List String → String
  | [] => ""
  | [p] => p
  | p :: ps => p ++ "&" ++ joinAmp ps

/-- `joinAmp` at the level of character lists (proof vehicle). -/
def joinSep (sep : Char) : List (List Char) → List Char
  | [] => []
  | [p] => p
  | p :: ps => p ++ sep :: joinSep sep ps

/-- The `parts` list built by `buildQueryString`'s loop: keys sorted
byte-wise (`sort.Strings`), each mapped to `key=value` with the value
formatted by `formatValue` and percent-encoded exactly when `urlEncode` is
set and the formatted value is complex. -/
def buildQueryParts (params : ParamMap) (urlEncode : Bool) : List String :=
  (sortStrings (params.map Prod.fst)).map (fun key =>
    let value := formatValue (lookupD params key)
    let value := if urlEncode && isComplexValue value then
        replacePlus (queryEscape value)
      else value
    key ++ "=" ++ value)

/-- Translation of the Go `buildQueryString` method. -/
def buildQueryString (params : ParamMap) (urlEncode : Bool) : String :=
  joinAmp (buildQueryParts params urlEncode)

/-! ### SHA-256 and HMAC (Go `crypto/sha256`, `crypto/hmac`) -/

def w32 (n : ℕ) : ℕ := n % 4294967296

def rotr32 (n x : ℕ) : ℕ := w32 ((x >>> n) ||| (x <<< (32 - n)))

def bigSigma0 (x : ℕ) : ℕ := rotr32 2 x ^^^ rotr32 13 x ^^^ rotr32 22 x

def bigSigma1 (x : ℕ) : ℕ := rotr32 6 x ^^^ rotr32 11 x ^^^ rotr32 25 x

def smallSigma0 (x : ℕ) : ℕ := rotr32 7 x ^^^ rotr32 18 x ^^^ (x >>> 3)

def smallSigma1 (x : ℕ) : ℕ := rotr32 17 x ^^^ rotr32 19 x ^^^ (x >>> 10)

def chFn (x y z : ℕ) : ℕ := (x &&& y) ^^^ ((4294967295 ^^^ x) &&& z)

def majFn (x y z : ℕ) : ℕ := (x &&& y) ^^^ (x &&& z) ^^^ (y &&& z)

/-- The eight 32-bit words of a SHA-256 hash state. -/
structure Sha256State where
  a : ℕ
  b : ℕ
  c : ℕ
  d : ℕ
  e : ℕ
  f : ℕ
  g : ℕ
  h : ℕ

def sha256Init : Sha256State :=
  ⟨1779033703, 3144134277, 1013904242, 2773480762,
   1359893119, 2600822924, 528734635, 1541459225⟩

def sha256K : List ℕ :=
  [1116352408, 1899447441, 3049323471, 3921009573, 961987163, 1508970993,
   2453635748, 2870763221, 3624381080, 310598401, 607225278, 1426881987,
   1925078388, 2162078206, 2614888103, 3248222580, 3835390401, 4022224774,
   264347078, 604807628, 770255983, 1249150122, 1555081692, 1996064986,
   2554220882, 2821834349, 2952996808, 3210313671, 3336571891, 3584528711,
   113926993, 338241895, 666307205, 773529912, 1294757372, 1396182291,
   1695183700, 1986661051, 2177026350, 2456956037, 2730485921, 2820302411,
   3259730800, 3345764771, 3516065817, 3600352804, 4094571909, 275423344,
   430227734, 506948616, 659060556, 883997877, 958139571, 1322822218,
   1537002063, 1747873779, 1955562222, 2024104815, 2227730452, 2361852424,
   2428436474, 2756734187, 3204031479, 3329325298]

/-- The 16 big-endian 32-bit words of one 64-byte block. -/
def blockWords (block : List ℕ) : List ℕ :=
  (List.range 16).map (fun i =>
    (block.getD (4 * i) 0) * 16777216 + (block.getD (4 * i + 1) 0) * 65536 +
      (block.getD (4 * i + 2) 0) * 256 + block.getD (4 * i + 3) 0)

/-- One step of the message-schedule extension. -/
def extendW (w : List ℕ) : List ℕ :=
  let n := w.length
  w ++ [w32 (smallSigma1 (w.getD (n - 2) 0) + w.getD (n - 7) 0 +
    smallSigma0 (w.getD (n - 15) 0) + w.getD (n - 16) 0)]

/-- Extend the 16 block words to the 64-word message schedule. -/
def scheduleW (ws : List ℕ) : List ℕ :=
  (List.range 48).foldl (fun w _ => extendW w) ws

/-- One SHA-256 compression round; the pair carries the round constant and
the schedule word. -/
def sha256Round (s : Sha256State) (kw : ℕ × ℕ) : Sha256State :=
  let t1 := w32 (s.h + bigSigma1 s.e + chFn s.e s.f s.g + kw.1 + kw.2)
  let t2 := w32 (bigSigma0 s.a + majFn s.a s.b s.c)
  ⟨w32 (t1 + t2), s.a, s.b, s.c, w32 (s.d + t1), s.e, s.f, s.g⟩

/-- Process one 64-byte block. -/
def sha256Block (s : Sha256State) (block : List ℕ) : Sha256State :=
  let w := scheduleW (blockWords block)
  let t := (sha256K.zip w).foldl sha256Round s
  ⟨w32 (s.a + t.a), w32 (s.b + t.b), w32 (s.c + t.c), w32 (s.d + t.d),
   w32 (s.e + t.e), w32 (s.f + t.f), w32 (s.g + t.g), w32 (s.h + t.h)⟩

/-- Big-endian 8-byte encoding of the bit length. -/
def lenBytes64 (n : ℕ) : List ℕ :=
  (List.range 8).map (fun i => (n >>> (8 * (7 - i))) % 256)

/-- SHA-256 padding: `0x80`, zeros to 56 mod 64, then the 64-bit bit length. -/
def padMessage (msg : List ℕ) : List ℕ :=
  let len := msg.length
  msg ++ [128] ++ List.replicate ((64 + 56 - ((len + 1) % 64)) % 64) 0 ++
    lenBytes64 (8 * len)

/-- Split into 64-byte blocks (the fuel is the exact block count). -/
def chunk64 : ℕ → List ℕ → List (List ℕ)
  | 0, _ => []
  | n + 1, l => l.take 64 :: chunk64 n (l.drop 64)

/-- Big-endian bytes of one 32-bit word. -/
def wordBytes (w : ℕ) : List ℕ :=
  [(w >>> 24) % 256, (w >>> 16) % 256, (w >>> 8) % 256, w % 256]

/-- SHA-256 of a byte sequence; a 32-byte digest. -/
def sha256 (msg : List ℕ) : List ℕ :=
  let padded := padMessage msg
  let st := (chunk64 (padded.length / 64) padded).foldl sha256Block sha256Init
  wordBytes st.a ++ wordBytes st.b ++ wordBytes st.c ++ wordBytes st.d ++
    wordBytes st.e ++ wordBytes st.f ++ wordBytes st.g ++ wordBytes st.h

/-- HMAC-SHA256 (Go `hmac.New(sha256.New, key)` then `Write`/`Sum`):
a key longer than the 64-byte block is first hashed, the key is zero-padded
to 64 bytes, and the digest is `H((k ⊕ opad) ++ H((k ⊕ ipad) ++ msg))`. -/
def hmacSha256 (key msg : List ℕ) : List ℕ :=
  let k1 := if 64 < key.length then sha256 key else key
  let k0 := k1 ++ List.replicate (64 - k1.length) 0
  let ipad := k0.map (fun b => b ^^^ 54)
  let opad := k0.map (fun b => b ^^^ 92)
  sha256 (opad ++ sha256 (ipad ++ msg))

/-- UTF-8 bytes of a string (Go `[]byte(s)`). -/
def utf8Bytes (s : String) : List ℕ := s.data.flatMap charUtf8

def hexDigitsLower : List Char := ("0123456789abcdef" : String).data

def hexDigitL (n : ℕ) : Char := hexDigitsLower.getD n '0'

/-- Go `hex.EncodeToString`: two lowercase hex digits per byte. -/
def hexEncode (bs : List ℕ) : String :=
  ⟨bs.flatMap (fun b => [hexDigitL ((b >>> 4) % 16), hexDigitL (b % 16)])⟩

/-- Translation of the Go `sign` method: lowercase-hex HMAC-SHA256 of the
message's UTF-8 bytes keyed by the API secret. -/
def sign (secret message : String) : String :=
  hexEncode (hmacSha256 (utf8Bytes secret) (utf8Bytes message))

/-! ### `structToMap` (typed request object to parameter map)

Go marshals the request struct to JSON (a field tagged `omitempty` is
omitted when its value is the type's zero value), unmarshals into
`map[string]interface{}` (every JSON number becomes a `float64`), and then
deletes entries that are `nil`, the empty string, the `float64` zero, or an
`int64` zero (unreachable after `json.Unmarshal`, kept for fidelity). -/

/-- A typed request field value: a string, a `float64`, or an
`int`/`int64`. -/
inductive FieldValue
  | str (s : String)
  | numF (q : ℚ)
  | numI (n : ℤ)
deriving DecidableEq

/-- Whether the value is its Go type's zero value. -/
def FieldValue.isZero : FieldValue → Bool
  | .str s => s = ""
  | .numF q => q = 0
  | .numI n => n = 0

/-- JSON round trip: every number comes back as `float64`. -/
def FieldValue.toGo : FieldValue → GoValue
  | .str s => .str s
  | .numF q => .num q
  | .numI n => .num (n : ℚ)

/-- One struct field: JSON key, value, and whether its tag has
`omitempty`. -/
structure ReqField where
  name : String
  value : FieldValue
  omitempty : Bool
deriving DecidableEq

/-- `json.Marshal` followed by `json.Unmarshal` into a map: `omitempty`
fields whose value is the zero value are dropped; numbers become
`float64`. -/
def marshalFields (fields : List ReqField) : ParamMap :=
  (fields.filter (fun f => !(f.omitempty && f.value.isZero))).map
    (fun f => (f.name, f.value.toGo))

/-- The deletion loop of `structToMap`: remove empty strings and zero
numbers (the `int64` arm of the Go switch mirrors the source; after
`json.Unmarshal` every number is a `float64`). -/
def stripZeroValues (m : ParamMap) : ParamMap :=
  m.filter (fun kv =>
    match kv.2 with
    | .str s => !(s = "")
    | .num q => !(q = 0)
    | .int n => !(n = 0)
    | .bool _ => true)

/-- Translation of the Go `structToMap` function. -/
def structToMap (fields : List ReqField) : ParamMap :=
  stripZeroValues (marshalFields fields)

/-! ### Client construction and request assembly -/

inductive ClientError
  | invalidCredentials
deriving DecidableEq

/-- The configuration passed to `NewClient` (the optional HTTP client is
transport state outside this core). -/
structure Config where
  apiKey : String
  apiSecret : String
  baseURL : String
deriving DecidableEq

structure Client where
  apiKey : String
  apiSecret : String
  baseURL : String
deriving DecidableEq

def defaultBaseURL : String := "https://open-api.bingx.com"

/-- Translation of the Go `NewClient` constructor: empty credentials fail
synchronously with `ErrInvalidCredentials`; otherwise a client is returned
with the base URL defaulted. -/
def NewClient (cfg : Config) : Except ClientError Client :=
  if cfg.apiKey = "" ∨ cfg.apiSecret = "" then .error .invalidCredentials
  else .ok
    { apiKey := cfg.apiKey
      apiSecret := cfg.apiSecret
      baseURL := if cfg.baseURL = "" then defaultBaseURL else cfg.baseURL }

/-- Go map assignment `params[k] = v`: any existing binding is replaced. -/
def mapInsert (params : ParamMap) (k : String) (v : GoValue) : ParamMap :=
  params.filter (fun kv => kv.1 ≠ k) ++ [(k, v)]

/-- The strings assembled by `doRequest` before the HTTP call. -/
structure AssembledRequest where
  signedQuery : String
  transmitted : String
  signature : String
  finalQuery : String

/-- Translation of the query-assembly part of the Go `doRequest` method:
inject the timestamp, canonicalize with `urlEncode=false`, sign that string,
re-canonicalize with `urlEncode=true` exactly when `containsComplexValues`
reports a complex value, and append `&signature=<hex>`. -/
def doRequestQuery (secret : String) (params₀ : ParamMap) (timestamp : ℤ) :
    AssembledRequest :=
  let params := mapInsert params₀ "timestamp" (.int timestamp)
  let queryString := buildQueryString params false
  let signature := sign secret queryString
  let transmitted :=
    if containsComplexValues params then buildQueryString params true
    else queryString
  ⟨queryString, transmitted, signature,
    transmitted ++ "&signature=" ++ signature⟩

/-! ### Spec-side definitions

These restate behaviour in the words of the specification, for comparison
with the definitions translated from the source. -/

/-- The float formatting rule as the specification states it: `"0"` for
zero; a plain integer numeral for a mathematically integral value of
magnitude below the large bound `1e15`; otherwise fixed-point at 8
fractional digits for magnitudes at least `0.0001` and 10 fractional digits
for smaller magnitudes, with trailing zeros and a bare trailing decimal
point stripped. -/
def formatFloatSpec (q : ℚ) : String :=
  if q = 0 then "0"
  else if q.den = 1 ∧ |q| < 10 ^ 15 then intRepr q.num
  else if 1/10000 ≤ |q| then
    trimRightChar (trimRightChar (fixedPoint q 8) '0') '.'
  else
    trimRightChar (trimRightChar (fixedPoint q 10) '0') '.'

/-- The key-to-formatted-value mapping a parameter map induces. -/
def formattedMap (params : ParamMap) : List (String × String) :=
  params.map (fun kv => (kv.1, formatValue kv.2))

/-- The value kinds `structToMap` can put into a parameter map: strings,
`float64` numbers and booleans (`json.Unmarshal` into `interface{}` never
produces machine integers). -/
def isStructToMapKind : GoValue → Bool
  | .str _ => true
  | .num _ => true
  | .bool _ => true
  | .int _ => false

/-! ### Properties of the byte-wise string order and `sortStrings` -/

theorem charListLe_total : ∀ a b, charListLe a b = true ∨ charListLe b a = true := by
  intro a
  induction a with
  | nil => intro b; left; rfl
  | cons x xs ih =>
    intro b
    cases b with
    | nil => right; rfl
    | cons y ys =>
      simp only [charListLe]
      rcases Nat.lt_trichotomy x.toNat y.toNat with h | h | h
      · left; simp [h]
      · rcases ih ys with h2 | h2
        · left; simp [h, h2, Nat.lt_irrefl]
        · right; simp [h, h2, Nat.lt_irrefl]
      · right; simp [h, Nat.lt_asymm h]

theorem charListLe_antisymm : ∀ a b, charListLe a b = true → charListLe b a = true →
    a = b := by
  intro a
  induction a with
  | nil =>
    intro b _ h2
    cases b with
    | nil => rfl
    | cons y ys => simp [charListLe] at h2
  | cons x xs ih =>
    intro b h1 h2
    cases b with
    | nil => simp [charListLe] at h1
    | cons y ys =>
      simp only [charListLe] at h1 h2
      rcases Nat.lt_trichotomy x.toNat y.toNat with h | h | h
      · simp [h, Nat.lt_asymm h] at h2
      · have hx : x = y := by
          rw [← Char.ofNat_toNat x, ← Char.ofNat_toNat y, h]
        subst hx
        simp [Nat.lt_irrefl] at h1 h2
        rw [ih ys h1 h2]
      · simp [h, Nat.lt_asymm h] at h1

theorem charListLe_trans : ∀ a b c, charListLe a b = true → charListLe b c = true →
    charListLe a c = true := by
  intro a
  induction a with
  | nil => intro b c _ _; rfl
  | cons x xs ih =>
    intro b c h1 h2
    cases b with
    | nil => simp [charListLe] at h1
    | cons y ys =>
      cases c with
      | nil => simp [charListLe] at h2
      | cons z zs =>
        simp only [charListLe] at h1 h2 ⊢
        by_cases hxy : x.toNat < y.toNat
        · by_cases hyz : y.toNat < z.toNat
          · simp [Nat.lt_trans hxy hyz]
          · by_cases hzy : z.toNat < y.toNat
            · simp [hyz, hzy] at h2
            · have : y.toNat = z.toNat := by omega
              simp [this ▸ hxy]
        · by_cases hyx : y.toNat < x.toNat
          · simp [hxy, hyx] at h1
          · have hxy' : x.toNat = y.toNat := by omega
            by_cases hyz : y.toNat < z.toNat
            · simp [hxy' ▸ hyz]
            · by_cases hzy : z.toNat < y.toNat
              · simp [hyz, hzy] at h2
              · have hyz' : y.toNat = z.toNat := by omega
                simp [hxy', hyz', Nat.lt_irrefl] at h1 h2 ⊢
                exact ih ys zs h1 h2

instance : IsTotal String strLeR := ⟨fun a b => charListLe_total a.data b.data⟩

instance : IsTrans String strLeR := ⟨fun a b c => charListLe_trans a.data b.data c.data⟩

instance : IsAntisymm String strLeR :=
  ⟨fun a b h1 h2 => String.ext (charListLe_antisymm a.data b.data h1 h2)⟩

theorem sortStrings_sorted (l : List String) : List.Sorted strLeR (sortStrings l) :=
  List.sorted_insertionSort strLeR l

theorem sortStrings_perm (l : List String) : (sortStrings l).Perm l :=
  List.perm_insertionSort strLeR l

theorem sortStrings_eq_of_perm {l₁ l₂ : List String} (h : l₁.Perm l₂) :
    sortStrings l₁ = sortStrings l₂ :=
  List.eq_of_perm_of_sorted (((sortStrings_perm l₁).trans h).trans (sortStrings_perm l₂).symm)
    (sortStrings_sorted l₁) (sortStrings_sorted l₂)

theorem mem_sortStrings {l : List String} {k : String} :
    k ∈ sortStrings l ↔ k ∈ l :=
  (sortStrings_perm l).mem_iff

/-! ### Association-list lookup lemmas -/

theorem lookup_eq_some_mem {l : ParamMap} {k : String} {v : GoValue}
    (h : l.lookup k = some v) : (k, v) ∈ l := by
  induction l with
  | nil => simp [List.lookup] at h
  | cons kv t ih =>
    obtain ⟨k1, v1⟩ := kv
    rw [List.lookup] at h
    by_cases hk : k = k1
    · simp only [hk, beq_self_eq_true, Option.some.injEq] at h
      rw [hk, h]
      exact List.mem_cons_self _ _
    · have : (k == k1) = false := beq_eq_false_iff_ne.mpr hk
      rw [this] at h
      exact List.mem_cons_of_mem _ (ih h)

theorem lookup_isSome_of_mem_keys {l : ParamMap} {k : String}
    (h : k ∈ l.map Prod.fst) : ∃ v, l.lookup k = some v := by
  induction l with
  | nil => simp at h
  | cons kv t ih =>
    rw [List.map_cons, List.mem_cons] at h
    by_cases hk : k = kv.1
    · exact ⟨kv.2, by simp [List.lookup, hk]⟩
    · rcases h with h | h
      · exact absurd h hk
      · rcases ih h with ⟨v, hv⟩
        refine ⟨v, ?_⟩
        rw [List.lookup, beq_eq_false_iff_ne.mpr hk, hv]

theorem lookupD_mem {l : ParamMap} {k : String} (h : k ∈ l.map Prod.fst) :
    (k, lookupD l k) ∈ l := by
  rcases lookup_isSome_of_mem_keys h with ⟨v, hv⟩
  have : lookupD l k = v := by rw [lookupD, hv]; rfl
  rw [this]
  exact lookup_eq_some_mem hv

theorem lookup_eq_some_of_mem_nodup {l : ParamMap} {k : String} {v : GoValue}
    (hnd : (l.map Prod.fst).Nodup) (h : (k, v) ∈ l) : l.lookup k = some v := by
  induction l with
  | nil => simp at h
  | cons kv t ih =>
    rw [List.map_cons, List.nodup_cons] at hnd
    rcases List.mem_cons.mp h with h | h
    · rw [← h]
      simp [List.lookup]
    · have hk : k ≠ kv.1 := by
        intro hkk
        exact hnd.1 (hkk ▸ (List.mem_map_of_mem Prod.fst h))
      rw [List.lookup, beq_eq_false_iff_ne.mpr hk]
      exact ih hnd.2 h

theorem lookupD_eq_of_mem_nodup {l : ParamMap} {k : String} {v : GoValue}
    (hnd : (l.map Prod.fst).Nodup) (h : (k, v) ∈ l) : lookupD l k = v := by
  rw [lookupD, lookup_eq_some_of_mem_nodup hnd h]; rfl

theorem lookupD_eq_of_perm {l₁ l₂ : ParamMap} (hnd : (l₁.map Prod.fst).Nodup)
    (hp : l₁.Perm l₂) {k : String} (hk : k ∈ l₁.map Prod.fst) :
    lookupD l₁ k = lookupD l₂ k := by
  have hnd₂ : (l₂.map Prod.fst).Nodup := ((hp.map Prod.fst).nodup_iff).mp hnd
  have h₁ : (k, lookupD l₁ k) ∈ l₁ := lookupD_mem hk
  exact (lookupD_eq_of_mem_nodup hnd₂ (hp.mem_iff.mp h₁)).symm

/-! ### `joinAmp` and separator-based decomposition -/

theorem joinSep_nil (sep : Char) : joinSep sep [] = [] := rfl

theorem joinSep_single (sep : Char) (p : List Char) : joinSep sep [p] = p := rfl

theorem joinSep_cons2 (sep : Char) (p q : List Char) (t : List (List Char)) :
    joinSep sep (p :: q :: t) = p ++ sep :: joinSep sep (q :: t) := rfl

theorem amp_data : ("&" : String).data = ['&'] := rfl

theorem joinAmp_cons2 (p q : String) (t : List String) :
    joinAmp (p :: q :: t) = p ++ "&" ++ joinAmp (q :: t) := rfl

theorem joinAmp_data : ∀ ps : List String,
    (joinAmp ps).data = joinSep '&' (ps.map String.data)
  | [] => rfl
  | [p] => rfl
  | p :: q :: ps => by
    have ih := joinAmp_data (q :: ps)
    rw [joinAmp_cons2, String.data_append, String.data_append, ih]
    simp [joinSep_cons2, amp_data]

theorem append_sep_inj {c : Char} : ∀ {a₁ : List Char} {b₁ : List Char}
    {a₂ b₂ : List Char}, a₁ ++ c :: b₁ = a₂ ++ c :: b₂ → c ∉ a₁ → c ∉ a₂ →
    a₁ = a₂ ∧ b₁ = b₂ := by
  intro a₁
  induction a₁ with
  | nil =>
    intro b₁ a₂ b₂ h _ hc₂
    cases a₂ with
    | nil => simpa using h
    | cons x t =>
      rw [List.nil_append, List.cons_append, List.cons.injEq] at h
      exact absurd (h.1 ▸ List.mem_cons_self x t) hc₂
  | cons x t ih =>
    intro b₁ a₂ b₂ h hc₁ hc₂
    cases a₂ with
    | nil =>
      rw [List.nil_append, List.cons_append, List.cons.injEq] at h
      exact absurd (h.1 ▸ List.mem_cons_self x t) hc₁
    | cons y s =>
      rw [List.cons_append, List.cons_append, List.cons.injEq] at h
      have ht := ih h.2 (fun hm => hc₁ (List.mem_cons_of_mem x hm))
        (fun hm => hc₂ (List.mem_cons_of_mem y hm))
      exact ⟨by rw [h.1, ht.1], ht.2⟩

theorem joinSep_inj {sep : Char} : ∀ l₁ l₂ : List (List Char),
    (∀ p ∈ l₁, sep ∉ p ∧ p ≠ []) → (∀ p ∈ l₂, sep ∉ p ∧ p ≠ []) →
    joinSep sep l₁ = joinSep sep l₂ → l₁ = l₂
  | [], [], _, _, _ => rfl
  | [], [p], _, h₂, hj => absurd hj.symm (h₂ p (List.mem_cons_self p [])).2
  | [], p :: q :: t, _, h₂, hj => by
    rw [joinSep_cons2, joinSep_nil] at hj
    cases p <;> simp at hj
  | [p], [], h₁, _, hj => absurd hj (h₁ p (List.mem_cons_self p [])).2
  | p :: q :: t, [], h₁, _, hj => by
    rw [joinSep_cons2, joinSep_nil] at hj
    cases p <;> simp at hj
  | [p₁], [p₂], _, _, hj => by
    have : p₁ = p₂ := hj
    rw [this]
  | [p₁], p₂ :: q₂ :: s₂, h₁, h₂, hj => by
    rw [joinSep_cons2] at hj
    have hp : p₁ = p₂ ++ sep :: joinSep sep (q₂ :: s₂) := hj
    exact absurd (hp ▸ List.mem_append_right p₂ (List.mem_cons_self sep _))
      (h₁ p₁ (List.mem_cons_self p₁ [])).1
  | p₁ :: q₁ :: s₁, [p₂], h₁, h₂, hj => by
    rw [joinSep_cons2] at hj
    have hp : p₂ = p₁ ++ sep :: joinSep sep (q₁ :: s₁) := hj.symm
    exact absurd (hp ▸ List.mem_append_right p₁ (List.mem_cons_self sep _))
      (h₂ p₂ (List.mem_cons_self p₂ [])).1
  | p₁ :: q₁ :: s₁, p₂ :: q₂ :: s₂, h₁, h₂, hj => by
    rw [joinSep_cons2, joinSep_cons2] at hj
    have hd := append_sep_inj hj (h₁ p₁ (List.mem_cons_self p₁ _)).1
      (h₂ p₂ (List.mem_cons_self p₂ _)).1
    have ht := joinSep_inj (q₁ :: s₁) (q₂ :: s₂)
      (fun p hp => h₁ p (List.mem_cons_of_mem p₁ hp))
      (fun p hp => h₂ p (List.mem_cons_of_mem p₂ hp)) hd.2
    rw [hd.1, ht]

theorem joinSep_length {sep : Char} : ∀ l : List (List Char),
    (joinSep sep l).length = (l.map List.length).sum + (l.length - 1)
  | [] => rfl
  | [p] => by simp [joinSep]
  | p :: q :: t => by
    have ih := @joinSep_length sep (q :: t)
    simp only [joinSep, List.length_append, List.length_cons, List.map_cons,
      List.sum_cons] at ih ⊢
    omega


/-! ### Character-set lemmas for rendered values -/

theorem natDigitsAux_chars {P : Char → Prop}
    (hd : ∀ d : ℕ, d < 10 → P (Char.ofNat (48 + d))) :
    ∀ fuel n acc, (∀ c ∈ acc, P c) → ∀ c ∈ natDigitsAux fuel n acc, P c := by
  intro fuel
  induction fuel with
  | zero => intro n acc hacc c hc; exact hacc c hc
  | succ f ih =>
    intro n acc hacc c hc
    simp only [natDigitsAux] at hc
    have hacc' : ∀ c ∈ Char.ofNat (48 + n % 10) :: acc, P c := by
      intro c hc
      rcases List.mem_cons.mp hc with h | h
      · rw [h]; exact hd (n % 10) (Nat.mod_lt n (by norm_num))
      · exact hacc c h
    by_cases hn : n < 10
    · rw [if_pos hn] at hc
      exact hacc' c hc
    · rw [if_neg hn] at hc
      exact ih (n / 10) _ hacc' c hc

theorem natDecimal_chars {n : ℕ} : ∀ c ∈ (natDecimal n).data, c.isDigit = true :=
  natDigitsAux_chars
    (by decide : ∀ d : ℕ, d < 10 → (Char.ofNat (48 + d)).isDigit = true)
    (n + 1) n [] (by simp)

theorem intRepr_chars {n : ℤ} : ∀ c ∈ (intRepr n).data, c.isDigit = true ∨ c = '-' := by
  intro c hc
  rw [intRepr] at hc
  by_cases hn : n < 0
  · rw [if_pos hn, String.data_append] at hc
    rcases List.mem_append.mp hc with h | h
    · right; simpa using h
    · left; exact natDecimal_chars c h
  · rw [if_neg hn] at hc
    left
    exact natDecimal_chars c hc

theorem padZeros_chars {s : String} {p : ℕ} {c : Char}
    (h : c ∈ (padZeros s p).data) : c = '0' ∨ c ∈ s.data := by
  rw [padZeros] at h
  rcases List.mem_append.mp h with h | h
  · left; exact List.eq_of_mem_replicate h
  · right; exact h

theorem fixedPoint_chars {q : ℚ} {p : ℕ} :
    ∀ c ∈ (fixedPoint q p).data, c.isDigit = true ∨ c = '-' ∨ c = '.' := by
  intro c hc
  simp only [fixedPoint, String.data_append] at hc
  rcases List.mem_append.mp hc with hc | hc
  · rcases List.mem_append.mp hc with hc | hc
    · rcases List.mem_append.mp hc with hc | hc
      · by_cases hq : q < 0
        · rw [if_pos hq] at hc
          right; left; simpa using hc
        · rw [if_neg hq] at hc
          simp at hc
      · rcases natDecimal_chars c hc with h
        exact Or.inl h
    · right; right; simpa using hc
  · rcases padZeros_chars hc with h | h
    · left; rw [h]; rfl
    · exact Or.inl (natDecimal_chars c h)

theorem trimRightChar_subset {s : String} {x c : Char}
    (h : c ∈ (trimRightChar s x).data) : c ∈ s.data := by
  rw [trimRightChar] at h
  rw [List.mem_reverse] at h
  have h2 := List.Sublist.subset (List.dropWhile_sublist _) h
  rwa [List.mem_reverse] at h2

theorem digit_not_bracket {c : Char} (h : c.isDigit = true) : ¬(c = '[' ∨ c = '{') := by
  rintro (rfl | rfl) <;> exact absurd h (by decide)

theorem isComplexValue_eq_false_iff {s : String} :
    isComplexValue s = false ↔ ∀ c ∈ s.data, ¬(c = '[' ∨ c = '{') := by
  rw [isComplexValue, List.any_eq_false]
  constructor
  · intro h c hc
    have := h c hc
    simpa using this
  · intro h c hc
    have := h c hc
    simpa using this

theorem numlike_not_complex {s : String}
    (h : ∀ c ∈ s.data, c.isDigit = true ∨ c = '-' ∨ c = '.') :
    isComplexValue s = false := by
  rw [isComplexValue_eq_false_iff]
  intro c hc
  rcases h c hc with h1 | h1 | h1
  · exact digit_not_bracket h1
  · rw [h1]; decide
  · rw [h1]; decide

theorem formatValue_num_chars {q : ℚ} :
    ∀ c ∈ (formatValue (.num q)).data, c.isDigit = true ∨ c = '-' ∨ c = '.' := by
  intro c hc
  simp only [formatValue] at hc
  by_cases h0 : q = 0
  · rw [if_pos h0] at hc
    left
    have : c = '0' := by simpa using hc
    rw [this]; rfl
  · rw [if_neg h0] at hc
    by_cases hint : q.den = 1 ∧ q < 10 ^ 15 ∧ -(10 ^ 15 : ℚ) < q
    · rw [if_pos hint] at hc
      rcases intRepr_chars c hc with h | h
      · exact Or.inl h
      · exact Or.inr (Or.inl h)
    · rw [if_neg hint] at hc
      exact fixedPoint_chars c (trimRightChar_subset (trimRightChar_subset hc))

theorem formatValue_num_not_complex (q : ℚ) :
    isComplexValue (formatValue (.num q)) = false :=
  numlike_not_complex formatValue_num_chars

theorem formatValue_int_not_complex (n : ℤ) :
    isComplexValue (formatValue (.int n)) = false := by
  refine numlike_not_complex (fun c hc => ?_)
  rcases @intRepr_chars n c hc with h | h
  · exact Or.inl h
  · exact Or.inr (Or.inl h)

theorem formatValue_bool_not_complex (b : Bool) :
    isComplexValue (formatValue (.bool b)) = false := by
  cases b <;> decide

theorem goFloatG_not_complex (q : ℚ) : isComplexValue (goFloatG q) = false := by
  rw [goFloatG]
  by_cases h : q.den = 1
  · rw [if_pos h]
    refine numlike_not_complex (fun c hc => ?_)
    rcases intRepr_chars c hc with h1 | h1
    · exact Or.inl h1
    · exact Or.inr (Or.inl h1)
  · rw [if_neg h]
    refine numlike_not_complex (fun c hc => ?_)
    exact fixedPoint_chars c (trimRightChar_subset (trimRightChar_subset hc))

/-- `%v` and `formatValue` classify every value identically under
`isComplexValue`: a numeral never contains a bracket, and strings and
booleans render identically under both. -/
theorem sprintV_complex_eq_formatValue_complex (v : GoValue) :
    isComplexValue (sprintV v) = isComplexValue (formatValue v) := by
  cases v with
  | str s => rfl
  | num q =>
    show isComplexValue (goFloatG q) = isComplexValue (formatValue (GoValue.num q))
    rw [goFloatG_not_complex, formatValue_num_not_complex]
  | int n => rfl
  | bool b => rfl

/-! ### Lemmas about the signer -/

theorem hexDigitL_mem (m : ℕ) : hexDigitL m ∈ hexDigitsLower := by
  rw [hexDigitL]
  by_cases h : m < 16
  · interval_cases m <;> decide
  · rw [List.getD_eq_default]
    · decide
    · rw [hexDigitsLower]
      simp only [List.length_cons, List.length_nil]
      omega

theorem sha256_length (msg : List ℕ) : (sha256 msg).length = 32 := by
  simp [sha256, wordBytes]

theorem hmacSha256_length (key msg : List ℕ) : (hmacSha256 key msg).length = 32 := by
  simp only [hmacSha256]
  exact sha256_length _

theorem hexEncode_length (bs : List ℕ) : (hexEncode bs).length = 2 * bs.length := by
  show (bs.flatMap _).length = 2 * bs.length
  induction bs with
  | nil => rfl
  | cons b t ih =>
    rw [List.flatMap_cons, List.length_append, ih, List.length_cons]
    simp only [List.length_cons, List.length_nil]
    omega

theorem hexEncode_chars {bs : List ℕ} :
    ∀ c ∈ (hexEncode bs).data, c ∈ hexDigitsLower := by
  intro c hc
  have hc' : c ∈ bs.flatMap (fun b => [hexDigitL ((b >>> 4) % 16), hexDigitL (b % 16)]) := hc
  rcases List.mem_flatMap.mp hc' with ⟨b, _, hb⟩
  rcases List.mem_cons.mp hb with h | h
  · rw [h]; exact hexDigitL_mem _
  · rcases List.mem_cons.mp h with h | h
    · rw [h]; exact hexDigitL_mem _
    · simp at h

theorem sign_length (secret message : String) : (sign secret message).length = 64 := by
  rw [sign, hexEncode_length, hmacSha256_length]

theorem sign_chars {secret message : String} :
    ∀ c ∈ (sign secret message).data, c ∈ hexDigitsLower := by
  intro c hc
  exact hexEncode_chars c hc

theorem sign_no_amp (secret message : String) : '&' ∉ (sign secret message).data := by
  intro h
  have := sign_chars _ h
  rw [hexDigitsLower] at this
  simp at this

theorem sign_no_eq (secret message : String) : '=' ∉ (sign secret message).data := by
  intro h
  have := sign_chars _ h
  rw [hexDigitsLower] at this
  simp at this


/-! ### Structural lemmas about `buildQueryString` -/

theorem buildQueryParts_false (params : ParamMap) :
    buildQueryParts params false =
      (sortStrings (params.map Prod.fst)).map
        (fun key => key ++ "=" ++ formatValue (lookupD params key)) := by
  rw [buildQueryParts]
  apply List.map_congr_left
  intro k _
  simp

theorem buildQueryParts_true (params : ParamMap) :
    buildQueryParts params true =
      (sortStrings (params.map Prod.fst)).map
        (fun key =>
          key ++ "=" ++
            (if isComplexValue (formatValue (lookupD params key)) then
              replacePlus (queryEscape (formatValue (lookupD params key)))
            else formatValue (lookupD params key))) := by
  rw [buildQueryParts]
  apply List.map_congr_left
  intro k _
  simp

theorem lookupD_not_complex {params : ParamMap}
    (h : ∀ kv ∈ params, isComplexValue (formatValue kv.2) = false) (k : String) :
    isComplexValue (formatValue (lookupD params k)) = false := by
  rcases hlook : params.lookup k with _ | v
  · rw [lookupD, hlook]
    decide
  · rw [lookupD, hlook]
    exact h (k, v) (lookup_eq_some_mem hlook)

/-- Core of C5: if no formatted value is complex, encoding changes nothing. -/
theorem buildQueryString_encode_eq (params : ParamMap)
    (h : ∀ kv ∈ params, isComplexValue (formatValue kv.2) = false) :
    buildQueryString params true = buildQueryString params false := by
  rw [buildQueryString, buildQueryString]
  congr 1
  rw [buildQueryParts_true, buildQueryParts_false]
  apply List.map_congr_left
  intro k _
  rw [lookupD_not_complex h k]
  simp

/-- Core of C3: canonicalization is invariant under permutation of the
(duplicate-free) parameter list. -/
theorem buildQueryString_perm {p₁ p₂ : ParamMap} (hp : p₁.Perm p₂)
    (hnd : (p₁.map Prod.fst).Nodup) (e : Bool) :
    buildQueryString p₁ e = buildQueryString p₂ e := by
  rw [buildQueryString, buildQueryString, buildQueryParts, buildQueryParts,
    sortStrings_eq_of_perm (hp.map Prod.fst)]
  congr 1
  apply List.map_congr_left
  intro k hk
  have hk₂ : k ∈ p₂.map Prod.fst := mem_sortStrings.mp hk
  have hk₁ : k ∈ p₁.map Prod.fst := ((hp.map Prod.fst).mem_iff).mpr hk₂
  rw [lookupD_eq_of_perm hnd hp hk₁]

theorem formattedMap_eq_keys_map : ∀ {params : ParamMap},
    (params.map Prod.fst).Nodup →
    formattedMap params =
      (params.map Prod.fst).map (fun k => (k, formatValue (lookupD params k))) := by
  intro params
  induction params with
  | nil => intro _; rfl
  | cons kv t ih =>
    intro hnd
    obtain ⟨k0, v0⟩ := kv
    rw [List.map_cons, List.nodup_cons] at hnd
    rw [formattedMap, List.map_cons, List.map_cons, List.map_cons]
    congr 1
    · have : lookupD ((k0, v0) :: t) k0 = v0 := by
        rw [lookupD, List.lookup]
        simp
      rw [this]
    · rw [← formattedMap, ih hnd.2]
      apply List.map_congr_left
      intro k hk
      have hk0 : (k == k0) = false :=
        beq_eq_false_iff_ne.mpr (fun h => hnd.1 (h ▸ hk))
      have : lookupD ((k0, v0) :: t) k = lookupD t k := by
        rw [lookupD, lookupD, List.lookup, hk0]
      rw [this]


/-! ### Length growth under percent-encoding -/

theorem replacePlus_data (s : String) :
    (replacePlus s).data = s.data.flatMap (fun c => if c = '+' then ['%', '2', '0'] else [c]) :=
  rfl

theorem queryEscape_data (s : String) :
    (queryEscape s).data = s.data.flatMap queryEscapeChar := rfl

theorem flatMap_length_ge {α β : Type} (f : α → List β) (h : ∀ x, 1 ≤ (f x).length) :
    ∀ l : List α, l.length ≤ (l.flatMap f).length := by
  intro l
  induction l with
  | nil => simp
  | cons a t ih =>
    rw [List.flatMap_cons, List.length_append, List.length_cons]
    have := h a
    omega

theorem flatMap_length_gt {α β : Type} (f : α → List β) (h : ∀ x, 1 ≤ (f x).length)
    {l : List α} {a : α} (ha : a ∈ l) (h2 : 2 ≤ (f a).length) :
    l.length < (l.flatMap f).length := by
  induction l with
  | nil => simp at ha
  | cons b t ih =>
    rw [List.flatMap_cons, List.length_append, List.length_cons]
    rcases List.mem_cons.mp ha with hb | hb
    · have := flatMap_length_ge f h t
      rw [hb] at h2
      omega
    · have := ih hb
      have := h b
      omega

theorem replaceChar_length_ge (c : Char) :
    1 ≤ (if c = '+' then ['%', '2', '0'] else [c]).length := by
  by_cases h : c = '+' <;> simp [h]

theorem queryEscapeChar_length_ge (c : Char) : 1 ≤ (queryEscapeChar c).length := by
  rw [queryEscapeChar]
  by_cases h1 : isUnreservedQuery c = true
  · simp [h1]
  · rw [if_neg h1]
    by_cases h2 : c = ' '
    · simp [h2]
    · rw [if_neg h2, charUtf8]
      by_cases ha : c.toNat < 128
      · simp [ha]
      · rw [if_neg ha]
        by_cases hb : c.toNat < 2048
        · simp [hb]
        · rw [if_neg hb]
          by_cases hc : c.toNat < 65536
          · simp [hc]
          · simp [hc]

/-- Escaping followed by the `+`-rewrite maps each character to at least one
character. -/
theorem escFull_length_ge (c : Char) :
    1 ≤ ((queryEscapeChar c).flatMap
      (fun x => if x = '+' then ['%', '2', '0'] else [x])).length := by
  calc 1 ≤ (queryEscapeChar c).length := queryEscapeChar_length_ge c
    _ ≤ _ := flatMap_length_ge _ replaceChar_length_ge _

theorem escFull_bracket_length {c : Char} (h : c = '[' ∨ c = '{') :
    2 ≤ ((queryEscapeChar c).flatMap
      (fun x => if x = '+' then ['%', '2', '0'] else [x])).length := by
  rcases h with h | h <;> rw [h] <;> decide

/-- A complex value strictly grows under `replacePlus ∘ queryEscape`. -/
theorem encoded_length_gt {v : String} (h : isComplexValue v = true) :
    v.data.length < (replacePlus (queryEscape v)).data.length := by
  rw [replacePlus_data, queryEscape_data, List.flatMap_assoc]
  rw [isComplexValue, List.any_eq_true] at h
  rcases h with ⟨c, hc, hcb⟩
  have hcb' : c = '[' ∨ c = '{' := by
    rcases Bool.or_eq_true_iff.mp hcb with h | h
    · left; exact decide_eq_true_eq.mp h
    · right; exact decide_eq_true_eq.mp h
  exact flatMap_length_gt _ escFull_length_ge hc (escFull_bracket_length hcb')

/-! ### `containsComplexValues` characterizations -/

theorem containsComplexValues_iff {params : ParamMap} :
    containsComplexValues params = true ↔
      ∃ kv ∈ params, isComplexValue (sprintV kv.2) = true := by
  rw [containsComplexValues, List.any_eq_true]

theorem containsComplexValues_iff_formatted {params : ParamMap} :
    containsComplexValues params = true ↔
      ∃ kv ∈ params, isComplexValue (formatValue kv.2) = true := by
  rw [containsComplexValues_iff]
  constructor
  · rintro ⟨kv, hm, hc⟩
    exact ⟨kv, hm, (sprintV_complex_eq_formatValue_complex kv.2) ▸ hc⟩
  · rintro ⟨kv, hm, hc⟩
    exact ⟨kv, hm, (sprintV_complex_eq_formatValue_complex kv.2).symm ▸ hc⟩

theorem containsComplexValues_eq_false_iff {params : ParamMap} :
    containsComplexValues params = false ↔
      ∀ kv ∈ params, isComplexValue (formatValue kv.2) = false := by
  rw [← Bool.not_eq_true, containsComplexValues_iff_formatted]
  push_neg
  constructor
  · intro h kv hm
    exact Bool.not_eq_true _ |>.mp (h kv hm)
  · intro h kv hm
    rw [h kv hm]
    exact Bool.false_ne_true


/-! ### Encoding strictly changes the canonical string when a complex value
is present -/

theorem sum_map_lt {α : Type} {l : List α} (f g : α → ℕ) (hle : ∀ a ∈ l, f a ≤ g a)
    {a₀ : α} (ha : a₀ ∈ l) (hlt : f a₀ < g a₀) : (l.map f).sum < (l.map g).sum := by
  induction l with
  | nil => simp at ha
  | cons b t ih =>
    rw [List.map_cons, List.map_cons, List.sum_cons, List.sum_cons]
    rcases List.mem_cons.mp ha with hb | hb
    · have hsum : (t.map f).sum ≤ (t.map g).sum := by
        apply List.sum_le_sum
        intro a hat
        exact hle a (List.mem_cons_of_mem b hat)
      rw [hb] at hlt
      omega
    · have hhead := hle b (List.mem_cons_self b t)
      have := ih (fun a hat => hle a (List.mem_cons_of_mem b hat)) hb
      omega

theorem joinAmp_length (ps : List String) :
    (joinAmp ps).length = (ps.map String.length).sum + (ps.length - 1) := by
  show (joinAmp ps).data.length = _
  rw [joinAmp_data, joinSep_length, List.map_map]
  rw [List.length_map]
  congr 1

theorem part_length (k v : String) : (k ++ "=" ++ v).length = k.length + 1 + v.length := by
  rw [String.length_append, String.length_append]
  rfl

theorem encoded_length_ge (v : String) :
    v.data.length ≤ (replacePlus (queryEscape v)).data.length := by
  rw [replacePlus_data, queryEscape_data, List.flatMap_assoc]
  exact flatMap_length_ge _ escFull_length_ge _

theorem buildQueryString_length_lt {params : ParamMap}
    (hnd : (params.map Prod.fst).Nodup)
    (h : ∃ kv ∈ params, isComplexValue (formatValue kv.2) = true) :
    (buildQueryString params false).length < (buildQueryString params true).length := by
  rcases h with ⟨⟨k₀, v₀⟩, hm, hc⟩
  have hc' : isComplexValue (formatValue v₀) = true := hc
  rw [buildQueryString, buildQueryString, buildQueryParts_true, buildQueryParts_false,
    joinAmp_length, joinAmp_length, List.map_map, List.map_map, List.length_map,
    List.length_map]
  have hk₀ : k₀ ∈ sortStrings (params.map Prod.fst) :=
    mem_sortStrings.mpr (List.mem_map_of_mem Prod.fst hm)
  have hl₀ : lookupD params k₀ = v₀ := lookupD_eq_of_mem_nodup hnd hm
  have hstrict :
      ((sortStrings (params.map Prod.fst)).map
        (String.length ∘ fun key => key ++ "=" ++ formatValue (lookupD params key))).sum <
      ((sortStrings (params.map Prod.fst)).map
        (String.length ∘ fun key =>
          key ++ "=" ++
            (if isComplexValue (formatValue (lookupD params key)) then
              replacePlus (queryEscape (formatValue (lookupD params key)))
            else formatValue (lookupD params key)))).sum := by
    refine sum_map_lt _ _ ?_ hk₀ ?_
    · intro k _
      simp only [Function.comp_apply, part_length]
      by_cases hck : isComplexValue (formatValue (lookupD params k)) = true
      · rw [if_pos hck]
        have := encoded_length_ge (formatValue (lookupD params k))
        have hlen1 : (formatValue (lookupD params k)).length =
            (formatValue (lookupD params k)).data.length := rfl
        have hlen2 : (replacePlus (queryEscape (formatValue (lookupD params k)))).length =
            (replacePlus (queryEscape (formatValue (lookupD params k)))).data.length := rfl
        omega
      · rw [if_neg hck]
    · simp only [Function.comp_apply, part_length, hl₀]
      rw [if_pos hc']
      have := encoded_length_gt hc'
      have hlen1 : (formatValue v₀).length = (formatValue v₀).data.length := rfl
      have hlen2 : (replacePlus (queryEscape (formatValue v₀))).length =
          (replacePlus (queryEscape (formatValue v₀))).data.length := rfl
      omega
  omega

theorem buildQueryString_true_ne_false {params : ParamMap}
    (hnd : (params.map Prod.fst).Nodup)
    (h : ∃ kv ∈ params, isComplexValue (formatValue kv.2) = true) :
    buildQueryString params true ≠ buildQueryString params false := by
  intro heq
  have := buildQueryString_length_lt hnd h
  rw [heq] at this
  exact lt_irrefl _ this


/-! ### `formatValue` agrees with the specified float formatting -/

theorem formatValue_num_eq_spec (q : ℚ) : formatValue (.num q) = formatFloatSpec q := by
  rw [formatFloatSpec]
  show (if q = 0 then "0"
    else if q.den = 1 ∧ q < 10 ^ 15 ∧ -(10 ^ 15 : ℚ) < q then intRepr q.num
    else
      trimRightChar (trimRightChar (fixedPoint q
        (if 1 ≤ |q| then 8 else if 1/10000 ≤ |q| then 8 else 10)) '0') '.') = _
  by_cases h0 : q = 0
  · rw [if_pos h0, if_pos h0]
  · rw [if_neg h0, if_neg h0]
    by_cases hint : q.den = 1 ∧ |q| < 10 ^ 15
    · have hint' : q.den = 1 ∧ q < 10 ^ 15 ∧ -(10 ^ 15 : ℚ) < q :=
        ⟨hint.1, (abs_lt.mp hint.2).2, (abs_lt.mp hint.2).1⟩
      rw [if_pos hint', if_pos hint]
    · have hint' : ¬(q.den = 1 ∧ q < 10 ^ 15 ∧ -(10 ^ 15 : ℚ) < q) := by
        intro hx
        exact hint ⟨hx.1, abs_lt.mpr ⟨hx.2.2, hx.2.1⟩⟩
      rw [if_neg hint', if_neg hint]
      by_cases hb : (1 : ℚ)/10000 ≤ |q|
      · by_cases h1 : (1 : ℚ) ≤ |q|
        · rw [if_pos h1, if_pos hb]
        · rw [if_neg h1, if_pos hb, if_pos hb]
      · have h1 : ¬(1 : ℚ) ≤ |q| := fun h1 => hb (le_trans (by norm_num) h1)
        rw [if_neg hb, if_neg h1, if_neg hb]

/-! ### `structToMap` lemmas -/

theorem mem_structToMap {fields : List ReqField} {kv : String × GoValue}
    (h : kv ∈ structToMap fields) :
    ∃ f ∈ fields, kv = (f.name, f.value.toGo) ∧ f.value.isZero = false := by
  rw [structToMap, stripZeroValues] at h
  have hmem := List.mem_of_mem_filter h
  have hpred := List.of_mem_filter h
  rw [marshalFields] at hmem
  rcases List.mem_map.mp hmem with ⟨f, hf, hkv⟩
  refine ⟨f, List.mem_of_mem_filter hf, hkv.symm, ?_⟩
  cases hv : f.value with
  | str s =>
    rw [← hkv, hv] at hpred
    simp only [FieldValue.toGo] at hpred
    rw [FieldValue.isZero, decide_eq_false_iff_not]
    intro hs
    rw [hs] at hpred
    simp [FieldValue.toGo] at hpred
  | numF q =>
    rw [← hkv, hv] at hpred
    simp only [FieldValue.toGo] at hpred
    rw [FieldValue.isZero, decide_eq_false_iff_not]
    intro hq
    rw [hq] at hpred
    simp at hpred
  | numI n =>
    rw [← hkv, hv] at hpred
    simp only [FieldValue.toGo] at hpred
    rw [FieldValue.isZero, decide_eq_false_iff_not]
    intro hn
    rw [hn] at hpred
    simp at hpred

theorem eq_of_name_eq_of_nodup : ∀ {fields : List ReqField},
    (fields.map ReqField.name).Nodup → ∀ {f g : ReqField}, f ∈ fields → g ∈ fields →
    f.name = g.name → f = g := by
  intro fields
  induction fields with
  | nil => intro _ f g hf; simp at hf
  | cons a t ih =>
    intro hnd f g hf hg hname
    rw [List.map_cons, List.nodup_cons] at hnd
    rcases List.mem_cons.mp hf with hf1 | hf1 <;> rcases List.mem_cons.mp hg with hg1 | hg1
    · rw [hf1, hg1]
    · exfalso
      apply hnd.1
      rw [← hf1, hname]
      exact List.mem_map_of_mem ReqField.name hg1
    · exfalso
      apply hnd.1
      rw [← hg1, ← hname]
      exact List.mem_map_of_mem ReqField.name hf1
    · exact ih hnd.2 hf1 hg1 hname


/-! ### Injectivity of canonicalization (up to formatted values, for
separator-free inputs) -/

theorem eqsign_data : ("=" : String).data = ['='] := rfl

theorem part_data (k v : String) : (k ++ "=" ++ v).data = k.data ++ '=' :: v.data := by
  rw [String.data_append, String.data_append, eqsign_data]
  simp

theorem parts_decomp : ∀ (ks₁ : List String) (ks₂ : List String)
    (f₁ f₂ : String → String),
    (∀ k ∈ ks₁, '=' ∉ k.data) → (∀ k ∈ ks₂, '=' ∉ k.data) →
    ks₁.map (fun k => k.data ++ '=' :: (f₁ k).data) =
      ks₂.map (fun k => k.data ++ '=' :: (f₂ k).data) →
    ks₁ = ks₂ ∧ ∀ k ∈ ks₁, f₁ k = f₂ k := by
  intro ks₁
  induction ks₁ with
  | nil =>
    intro ks₂ f₁ f₂ _ _ h
    cases ks₂ with
    | nil => exact ⟨rfl, by simp⟩
    | cons b t => simp at h
  | cons a t ih =>
    intro ks₂ f₁ f₂ h₁ h₂ h
    cases ks₂ with
    | nil => simp at h
    | cons b u =>
      rw [List.map_cons, List.map_cons] at h
      injection h with hhead htail
      have hd := append_sep_inj hhead (h₁ a (List.mem_cons_self a t))
        (h₂ b (List.mem_cons_self b u))
      have hab : a = b := String.ext hd.1
      have hfab : f₁ a = f₂ b := String.ext hd.2
      have ht := ih u f₁ f₂ (fun k hk => h₁ k (List.mem_cons_of_mem a hk))
        (fun k hk => h₂ k (List.mem_cons_of_mem b hk)) htail
      refine ⟨by rw [hab, ht.1], ?_⟩
      intro k hk
      rcases List.mem_cons.mp hk with hk | hk
      · rw [← hab] at hfab
        rw [hk]
        exact hfab
      · exact ht.2 k hk

theorem bqs_parts_data (p : ParamMap) :
    (buildQueryString p false).data =
      joinSep '&' ((sortStrings (p.map Prod.fst)).map
        (fun k => k.data ++ '=' :: (formatValue (lookupD p k)).data)) := by
  rw [buildQueryString, joinAmp_data, buildQueryParts_false, List.map_map]
  congr 1
  apply List.map_congr_left
  intro k _
  exact part_data k _

theorem part_sep_conditions {p : ParamMap}
    (hs : ∀ kv ∈ p, '&' ∉ kv.1.data ∧ '=' ∉ kv.1.data ∧ '&' ∉ (formatValue kv.2).data) :
    ∀ part ∈ (sortStrings (p.map Prod.fst)).map
      (fun k => k.data ++ '=' :: (formatValue (lookupD p k)).data),
      '&' ∉ part ∧ part ≠ [] := by
  intro part hpart
  rcases List.mem_map.mp hpart with ⟨k, hk, rfl⟩
  have hk' : k ∈ p.map Prod.fst := mem_sortStrings.mp hk
  have hcond := hs (k, lookupD p k) (lookupD_mem hk')
  constructor
  · intro hamp
    rcases List.mem_append.mp hamp with h | h
    · exact hcond.1 h
    · rcases List.mem_cons.mp h with h | h
      · exact absurd h (by decide)
      · exact hcond.2.2 h
  · intro hnil
    simp at hnil

theorem keys_eqsign_free {p : ParamMap}
    (hs : ∀ kv ∈ p, '&' ∉ kv.1.data ∧ '=' ∉ kv.1.data ∧ '&' ∉ (formatValue kv.2).data) :
    ∀ k ∈ sortStrings (p.map Prod.fst), '=' ∉ k.data := fun k hk =>
  (hs (k, lookupD p k) (lookupD_mem (mem_sortStrings.mp hk))).2.1

/-- Forward direction: equal canonical strings force equal key-to-formatted-
value mappings, for separator-free parameter maps. -/
theorem bqs_false_inj {p₁ p₂ : ParamMap}
    (hnd₁ : (p₁.map Prod.fst).Nodup) (hnd₂ : (p₂.map Prod.fst).Nodup)
    (hs₁ : ∀ kv ∈ p₁, '&' ∉ kv.1.data ∧ '=' ∉ kv.1.data ∧ '&' ∉ (formatValue kv.2).data)
    (hs₂ : ∀ kv ∈ p₂, '&' ∉ kv.1.data ∧ '=' ∉ kv.1.data ∧ '&' ∉ (formatValue kv.2).data)
    (heq : buildQueryString p₁ false = buildQueryString p₂ false) :
    (formattedMap p₁).Perm (formattedMap p₂) := by
  have hdata := congrArg String.data heq
  rw [bqs_parts_data, bqs_parts_data] at hdata
  have hparts := joinSep_inj _ _ (part_sep_conditions hs₁) (part_sep_conditions hs₂) hdata
  have hdec := parts_decomp _ _ _ _ (keys_eqsign_free hs₁) (keys_eqsign_free hs₂) hparts
  have hch₁ : (formattedMap p₁).Perm
      ((sortStrings (p₁.map Prod.fst)).map (fun k => (k, formatValue (lookupD p₁ k)))) := by
    rw [formattedMap_eq_keys_map hnd₁]
    exact (List.Perm.map _ (sortStrings_perm (p₁.map Prod.fst))).symm
  have hch₂ : ((sortStrings (p₂.map Prod.fst)).map
      (fun k => (k, formatValue (lookupD p₂ k)))).Perm (formattedMap p₂) := by
    rw [formattedMap_eq_keys_map hnd₂]
    exact List.Perm.map _ (sortStrings_perm (p₂.map Prod.fst))
  have hmid : (sortStrings (p₁.map Prod.fst)).map (fun k => (k, formatValue (lookupD p₁ k))) =
      (sortStrings (p₂.map Prod.fst)).map (fun k => (k, formatValue (lookupD p₂ k))) := by
    rw [← hdec.1]
    apply List.map_congr_left
    intro k hk
    rw [hdec.2 k hk]
  exact hch₁.trans (hmid ▸ hch₂)

/-- Reverse direction: equal key-to-formatted-value mappings give equal
canonical strings. -/
theorem bqs_false_congr {p₁ p₂ : ParamMap}
    (hnd₂ : (p₂.map Prod.fst).Nodup)
    (hperm : (formattedMap p₁).Perm (formattedMap p₂)) :
    buildQueryString p₁ false = buildQueryString p₂ false := by
  have hkeys : (p₁.map Prod.fst).Perm (p₂.map Prod.fst) := by
    have h1 : (formattedMap p₁).map Prod.fst = p₁.map Prod.fst := by
      rw [formattedMap, List.map_map]; rfl
    have h2 : (formattedMap p₂).map Prod.fst = p₂.map Prod.fst := by
      rw [formattedMap, List.map_map]; rfl
    rw [← h1, ← h2]
    exact hperm.map Prod.fst
  rw [buildQueryString, buildQueryString, buildQueryParts_false, buildQueryParts_false,
    sortStrings_eq_of_perm hkeys]
  congr 1
  apply List.map_congr_left
  intro k hk
  have hk₂ : k ∈ p₂.map Prod.fst := mem_sortStrings.mp hk
  have hk₁ : k ∈ p₁.map Prod.fst := hkeys.mem_iff.mpr hk₂
  have hm₁ : (k, formatValue (lookupD p₁ k)) ∈ formattedMap p₁ := by
    rw [formattedMap]
    exact List.mem_map.mpr ⟨(k, lookupD p₁ k), lookupD_mem hk₁, rfl⟩
  have hm₂ := hperm.mem_iff.mp hm₁
  rw [formattedMap] at hm₂
  rcases List.mem_map.mp hm₂ with ⟨kv, hkv, hkveq⟩
  have hk1 : kv.1 = k := congrArg Prod.fst hkveq
  have hv : formatValue kv.2 = formatValue (lookupD p₁ k) := congrArg Prod.snd hkveq
  have hmem2 : (k, kv.2) ∈ p₂ := by
    rw [← hk1]
    simpa using hkv
  have hlook : lookupD p₂ k = kv.2 := lookupD_eq_of_mem_nodup hnd₂ hmem2
  rw [hlook, hv]


/-! ## Claim theorems -/

/-- C1: for every parameter set, `doRequest` computes the signature by HMAC
over the canonical string built with `urlEncode=false` (timestamp included);
the transmitted query is rebuilt with `urlEncode=true` exactly when
`containsComplexValues` reports a complex parameter value (equivalently,
some value's `%v` rendering contains `'['` or `'{'`), otherwise it equals
the signed string; and the final query is the transmitted string followed by
`"&signature="` and the hex signature, whose characters include no `'&'` or
`'='`, so the signature is always the last query parameter. -/
theorem C1_doRequest_assembly (secret : String) (params₀ : ParamMap) (timestamp : ℤ) :
    (doRequestQuery secret params₀ timestamp).signature =
      sign secret
        (buildQueryString (mapInsert params₀ "timestamp" (.int timestamp)) false) ∧
    (doRequestQuery secret params₀ timestamp).signedQuery =
      buildQueryString (mapInsert params₀ "timestamp" (.int timestamp)) false ∧
    (doRequestQuery secret params₀ timestamp).transmitted =
      (if containsComplexValues (mapInsert params₀ "timestamp" (.int timestamp)) then
        buildQueryString (mapInsert params₀ "timestamp" (.int timestamp)) true
      else buildQueryString (mapInsert params₀ "timestamp" (.int timestamp)) false) ∧
    (containsComplexValues (mapInsert params₀ "timestamp" (.int timestamp)) = true ↔
      ∃ kv ∈ mapInsert params₀ "timestamp" (.int timestamp),
        isComplexValue (sprintV kv.2) = true) ∧
    (doRequestQuery secret params₀ timestamp).finalQuery =
      (doRequestQuery secret params₀ timestamp).transmitted ++ "&signature=" ++
        (doRequestQuery secret params₀ timestamp).signature ∧
    '&' ∉ (doRequestQuery secret params₀ timestamp).signature.data ∧
    '=' ∉ (doRequestQuery secret params₀ timestamp).signature.data :=
  ⟨rfl, rfl, rfl, containsComplexValues_iff, rfl, sign_no_amp _ _, sign_no_eq _ _⟩

theorem C1_doRequest_assembly_witness :
    (doRequestQuery "sec" [("symbol", .str "BTC-USDT")] 1700000000000).finalQuery =
      (doRequestQuery "sec" [("symbol", .str "BTC-USDT")] 1700000000000).transmitted ++
        "&signature=" ++
        (doRequestQuery "sec" [("symbol", .str "BTC-USDT")] 1700000000000).signature :=
  (C1_doRequest_assembly "sec" [("symbol", .str "BTC-USDT")] 1700000000000).2.2.2.2.1

/-- C2: the float formatter renders `"0"` for zero, a plain integer numeral
for integral values of magnitude below `1e15`, and otherwise a fixed-point
rendering at 8 fractional digits for `|v| ≥ 0.0001` and 10 for smaller
magnitudes with trailing zeros and a bare decimal point stripped; integer
values render as sign-preserving plain decimals. -/
theorem C2_formatValue_spec :
    (∀ q : ℚ, formatValue (.num q) = formatFloatSpec q) ∧
    (∀ n : ℤ, formatValue (.int n) =
      (if n < 0 then "-" ++ natDecimal n.natAbs else natDecimal n.natAbs)) :=
  ⟨formatValue_num_eq_spec, fun _ => rfl⟩

theorem C2_formatValue_spec_witness :
    formatValue (.num 0) = formatFloatSpec 0 ∧
    formatValue (.int (-5)) = "-" ++ natDecimal 5 := by
  refine ⟨C2_formatValue_spec.1 0, ?_⟩
  have h := C2_formatValue_spec.2 (-5)
  rw [h]
  decide

/-- C3: canonicalization sorts keys byte-wise lexicographically,
independently of insertion order, joining with `'&'`; the timestamp key
sorts like any other, so `{b:1, a:2, timestamp:3}` canonicalizes to
`"a=2&b=1&timestamp=3"`. -/
theorem C3_canonicalization_sorted (p₁ p₂ : ParamMap) (e : Bool)
    (hp : p₁.Perm p₂) (hnd : (p₁.map Prod.fst).Nodup) :
    buildQueryString p₁ e = buildQueryString p₂ e ∧
    buildQueryString [("b", .int 1), ("a", .int 2), ("timestamp", .int 3)] e =
      "a=2&b=1&timestamp=3" := by
  refine ⟨buildQueryString_perm hp hnd e, ?_⟩
  cases e <;> decide

theorem C3_canonicalization_sorted_witness :
    buildQueryString [("b", GoValue.int 1), ("a", GoValue.int 2)] false =
      buildQueryString [("a", GoValue.int 2), ("b", GoValue.int 1)] false ∧
    buildQueryString [("b", .int 1), ("a", .int 2), ("timestamp", .int 3)] false =
      "a=2&b=1&timestamp=3" :=
  C3_canonicalization_sorted [("b", .int 1), ("a", .int 2)]
    [("a", .int 2), ("b", .int 1)] false
    (List.Perm.swap ("a", GoValue.int 2) ("b", GoValue.int 1) []) (by decide)

/-- C4: when some formatted value is complex, the encoded and plain
canonicalizations are maps over the same sorted key list, with each complex
value percent-encoded by `queryEscape` followed by the `'+'`-to-`"%20"`
rewrite (so the encoded value contains no `'+'`), while every non-complex
field's part is byte-identical between the two. -/
theorem C4_encoding_only_complex_fields (params : ParamMap)
    (_hcomplex : ∃ kv ∈ params, isComplexValue (formatValue kv.2) = true) :
    buildQueryParts params true =
      (sortStrings (params.map Prod.fst)).map (fun key =>
        key ++ "=" ++
          (if isComplexValue (formatValue (lookupD params key)) then
            replacePlus (queryEscape (formatValue (lookupD params key)))
          else formatValue (lookupD params key))) ∧
    buildQueryParts params false =
      (sortStrings (params.map Prod.fst)).map (fun key =>
        key ++ "=" ++ formatValue (lookupD params key)) ∧
    (∀ k ∈ sortStrings (params.map Prod.fst),
      isComplexValue (formatValue (lookupD params k)) = false →
        (if isComplexValue (formatValue (lookupD params k)) then
          replacePlus (queryEscape (formatValue (lookupD params k)))
        else formatValue (lookupD params k)) = formatValue (lookupD params k)) ∧
    (∀ v : String, '+' ∉ (replacePlus (queryEscape v)).data) := by
  refine ⟨buildQueryParts_true params, buildQueryParts_false params, ?_, ?_⟩
  · intro k _ hk
    rw [if_neg (by rw [hk]; exact Bool.false_ne_true)]
  · intro v hv
    rcases List.mem_flatMap.mp hv with ⟨c, _, hc⟩
    by_cases hcp : c = '+'
    · rw [if_pos hcp] at hc
      simp at hc
    · rw [if_neg hcp] at hc
      rcases List.mem_cons.mp hc with h1 | h1
      · exact hcp h1.symm
      · simp at h1

theorem C4_encoding_only_complex_fields_witness :
    buildQueryParts [("sl", GoValue.str "[1,2]")] true =
      (sortStrings ([("sl", GoValue.str "[1,2]")].map Prod.fst)).map (fun key =>
        key ++ "=" ++
          (if isComplexValue (formatValue (lookupD [("sl", GoValue.str "[1,2]")] key)) then
            replacePlus (queryEscape (formatValue (lookupD [("sl", GoValue.str "[1,2]")] key)))
          else formatValue (lookupD [("sl", GoValue.str "[1,2]")] key))) :=
  (C4_encoding_only_complex_fields [("sl", GoValue.str "[1,2]")] (by decide)).1

/-- C5: when no formatted value contains `'['` or `'{'`, canonicalization
with `encode=true` equals canonicalization with `encode=false`. -/
theorem C5_no_complex_encode_irrelevant (params : ParamMap)
    (h : ∀ kv ∈ params, isComplexValue (formatValue kv.2) = false) :
    buildQueryString params true = buildQueryString params false :=
  buildQueryString_encode_eq params h

theorem C5_no_complex_encode_irrelevant_witness :
    buildQueryString [("symbol", GoValue.str "BTC-USDT"), ("side", GoValue.str "BUY")] true =
      buildQueryString [("symbol", GoValue.str "BTC-USDT"), ("side", GoValue.str "BUY")] false :=
  C5_no_complex_encode_irrelevant
    [("symbol", GoValue.str "BTC-USDT"), ("side", GoValue.str "BUY")] (by decide)

/-- C6: `structToMap` drops every field whose value is its type's zero value
(empty string, numeric zero): the field's key appears neither in the
resulting parameter map nor in the sorted key list canonicalization uses. -/
theorem C6_structToMap_drops_zero_fields (fields : List ReqField) (f : ReqField)
    (hnd : (fields.map ReqField.name).Nodup) (hf : f ∈ fields)
    (hz : f.value.isZero = true) :
    f.name ∉ (structToMap fields).map Prod.fst ∧
    f.name ∉ sortStrings ((structToMap fields).map Prod.fst) := by
  have hmain : f.name ∉ (structToMap fields).map Prod.fst := by
    intro hmem
    rcases List.mem_map.mp hmem with ⟨kv, hkv, hname⟩
    rcases mem_structToMap hkv with ⟨g, hg, hkveq, hgz⟩
    have hgf : g = f := by
      refine eq_of_name_eq_of_nodup hnd hg hf ?_
      rw [← hname, hkveq]
    rw [hgf, hz] at hgz
    simp at hgz
  exact ⟨hmain, fun h => hmain (mem_sortStrings.mp h)⟩

theorem C6_structToMap_drops_zero_fields_witness :
    "price" ∉ (structToMap
      [⟨"symbol", FieldValue.str "BTC-USDT", false⟩,
       ⟨"price", FieldValue.numF 0, true⟩,
       ⟨"quantity", FieldValue.numF 1, true⟩]).map Prod.fst :=
  (C6_structToMap_drops_zero_fields
    [⟨"symbol", FieldValue.str "BTC-USDT", false⟩,
     ⟨"price", FieldValue.numF 0, true⟩,
     ⟨"quantity", FieldValue.numF 1, true⟩]
    ⟨"price", FieldValue.numF 0, true⟩
    (by decide) (by decide) (by decide)).1

/-- C7: the signer is the lowercase-hex HMAC-SHA256 of the message's UTF-8
bytes keyed by the secret: a 64-character string of lowercase hex digits,
deterministic and total. -/
theorem C7_sign_spec (secret message : String) :
    sign secret message =
      hexEncode (hmacSha256 (utf8Bytes secret) (utf8Bytes message)) ∧
    (sign secret message).length = 64 ∧
    (∀ c ∈ (sign secret message).data, c ∈ hexDigitsLower) :=
  ⟨rfl, sign_length secret message, sign_chars⟩

theorem C7_sign_spec_witness :
    (sign "s3cr3t" "symbol=BTC-USDT&timestamp=1700000000000").length = 64 :=
  (C7_sign_spec "s3cr3t" "symbol=BTC-USDT&timestamp=1700000000000").2.1

/-- C9: construction fails synchronously with the invalid-credentials error
when either credential is empty, and otherwise returns a client. -/
theorem C9_newClient_validation (cfg : Config) :
    ((cfg.apiKey = "" ∨ cfg.apiSecret = "") →
      NewClient cfg = .error .invalidCredentials) ∧
    (cfg.apiKey ≠ "" → cfg.apiSecret ≠ "" →
      NewClient cfg = .ok
        { apiKey := cfg.apiKey
          apiSecret := cfg.apiSecret
          baseURL := if cfg.baseURL = "" then defaultBaseURL else cfg.baseURL }) := by
  constructor
  · intro h
    rw [NewClient, if_pos h]
  · intro h1 h2
    rw [NewClient, if_neg (by tauto)]

theorem C9_newClient_validation_witness :
    NewClient ⟨"", "sec", ""⟩ = .error .invalidCredentials ∧
    NewClient ⟨"key", "", ""⟩ = .error .invalidCredentials ∧
    NewClient ⟨"key", "sec", ""⟩ = .ok ⟨"key", "sec", defaultBaseURL⟩ := by
  refine ⟨(C9_newClient_validation ⟨"", "sec", ""⟩).1 (Or.inl rfl),
    (C9_newClient_validation ⟨"key", "", ""⟩).1 (Or.inr rfl), ?_⟩
  have h := (C9_newClient_validation ⟨"key", "sec", ""⟩).2 (by decide) (by decide)
  simpa using h

/-- C10: over duplicate-free parameter maps whose values are of the kinds
`structToMap` produces, `containsComplexValues` is true exactly when the
encoded and plain canonicalizations differ, so `doRequest`'s conditional
re-encoding never skips a change and never re-encodes needlessly. -/
theorem C10_needsEncoding_iff_changes (params : ParamMap)
    (hnd : (params.map Prod.fst).Nodup)
    (_hkinds : ∀ kv ∈ params, isStructToMapKind kv.2 = true) :
    containsComplexValues params = true ↔
      buildQueryString params true ≠ buildQueryString params false := by
  constructor
  · intro h
    exact buildQueryString_true_ne_false hnd (containsComplexValues_iff_formatted.mp h)
  · intro h
    by_contra hc
    rw [Bool.not_eq_true] at hc
    exact h (buildQueryString_encode_eq params (containsComplexValues_eq_false_iff.mp hc))

theorem C10_needsEncoding_iff_changes_witness :
    buildQueryString [("tp", GoValue.str "[TP]")] true ≠
      buildQueryString [("tp", GoValue.str "[TP]")] false :=
  (C10_needsEncoding_iff_changes [("tp", GoValue.str "[TP]")]
    (by decide) (by decide)).mp (by decide)

/-- C8 counterexample: canonicalization is not injective over the produced
value kinds: the boolean `true` and the string `"true"` canonicalize
identically, and a string value containing `'&'` and `'='` collides with a
two-parameter map. -/
theorem C8_counterexample :
    (buildQueryString [("a", GoValue.bool true)] false =
        buildQueryString [("a", GoValue.str "true")] false ∧
      [("a", GoValue.bool true)] ≠ [("a", GoValue.str "true")]) ∧
    (buildQueryString [("a", GoValue.str "1&b=2")] false =
        buildQueryString [("a", GoValue.str "1"), ("b", GoValue.str "2")] false ∧
      [("a", GoValue.str "1&b=2")].length ≠
        [("a", GoValue.str "1"), ("b", GoValue.str "2")].length) := by
  refine ⟨⟨?_, ?_⟩, ?_, ?_⟩ <;> decide

/-- C8 amended: for duplicate-free parameter maps in which no key contains
`'&'` or `'='` and no formatted value contains `'&'`, canonical strings are
equal iff the key-to-formatted-value mappings are equal as multisets;
injectivity down to the raw values fails (distinct values share formatted
forms) and separator-laden values break even string-level injectivity. -/
theorem C8_canonical_injective_amended (p₁ p₂ : ParamMap)
    (hnd₁ : (p₁.map Prod.fst).Nodup) (hnd₂ : (p₂.map Prod.fst).Nodup)
    (hs₁ : ∀ kv ∈ p₁, '&' ∉ kv.1.data ∧ '=' ∉ kv.1.data ∧
      '&' ∉ (formatValue kv.2).data)
    (hs₂ : ∀ kv ∈ p₂, '&' ∉ kv.1.data ∧ '=' ∉ kv.1.data ∧
      '&' ∉ (formatValue kv.2).data) :
    buildQueryString p₁ false = buildQueryString p₂ false ↔
      (formattedMap p₁).Perm (formattedMap p₂) :=
  ⟨bqs_false_inj hnd₁ hnd₂ hs₁ hs₂, bqs_false_congr hnd₂⟩

theorem C8_canonical_injective_amended_witness :
    (formattedMap [("a", GoValue.str "1"), ("b", GoValue.str "2")]).Perm
      (formattedMap [("b", GoValue.str "2"), ("a", GoValue.str "1")]) :=
  (C8_canonical_injective_amended
    [("a", GoValue.str "1"), ("b", GoValue.str "2")]
    [("b", GoValue.str "2"), ("a", GoValue.str "1")]
    (by decide) (by decide) (by decide) (by decide)).mp (by decide)

end BingX
